import Mathlib

/-!
Verification development for the Slated Obsidian plugin
(repository `tgrosinger/scheduled-obsidian`).

The development shallowly embeds the two source files of the repository:

* `src/settings.ts` — the `ISettings` interface, its defaults and
  `settingsWithDefaults`;
* `src/main.ts` — the plugin class: the `file-open` event callback
  installed in `onload`, and the `renderMovedTasks` markdown
  post-processor.

Components of the engine whose implementation files are not part of the
repository snapshot (`TaskHandler`, `TaskLine`, `VaultIntermediate`) are
modelled from the specification; every such definition carries a doc
comment starting with `Modelled from the spec:`.

JavaScript strings are modelled as Lean `String` (operating on the
character list `String.data`); JavaScript machine integers do not occur
in the modelled code paths, and all counting is over `Nat`.
-/

/-! ## Settings (`src/settings.ts`) -/

/-- The `ISettings` interface of `src/settings.ts` (lines 3–11).
`ILocaleOverride` and `IWeekStartOption` are string union types of the
external `obsidian-calendar-ui` package and are modelled as `String`. -/
structure ISettings where
  tasksHeader : String
  blankLineAfterHeader : Bool
  preserveMovedTasks : Bool
  localeOverride : String
  weekStart : String
deriving DecidableEq

/-- The `defaultSettings` constant of `src/settings.ts` (lines 13–20). -/
def defaultSettings : ISettings :=
  ⟨"## Tasks", true, false, "system-default", "locale"⟩

/-- A TypeScript `Partial<ISettings>` value: each field either absent
(`none`, the key is not present in the object) or present with a value. -/
structure PartialISettings where
  tasksHeader : Option String
  blankLineAfterHeader : Option Bool
  preserveMovedTasks : Option Bool
  localeOverride : Option String
  weekStart : Option String
deriving DecidableEq

/-- `settingsWithDefaults` of `src/settings.ts` (lines 22–24):
the object spread `{ ...defaultSettings, ...settings }`, which is the
right-biased per-key merge — a key present in `settings` wins, an absent
key falls back to `defaultSettings`. -/
def settingsWithDefaults (settings : PartialISettings) : ISettings :=
  ⟨settings.tasksHeader.getD defaultSettings.tasksHeader,
   settings.blankLineAfterHeader.getD defaultSettings.blankLineAfterHeader,
   settings.preserveMovedTasks.getD defaultSettings.preserveMovedTasks,
   settings.localeOverride.getD defaultSettings.localeOverride,
   settings.weekStart.getD defaultSettings.weekStart⟩

/-- View a complete `ISettings` value as a partial one with every key
present (the coercion implicit in passing a complete object where a
`Partial<ISettings>` is expected). -/
def asPartialSettings (s : ISettings) : PartialISettings :=
  ⟨some s.tasksHeader, some s.blankLineAfterHeader, some s.preserveMovedTasks,
   some s.localeOverride, some s.weekStart⟩

/-- The field names of the `ISettings` interface, in declaration order
(`src/settings.ts` lines 3–11). -/
def ISettingsFieldNames : List String :=
  ["tasksHeader", "blankLineAfterHeader", "preserveMovedTasks",
   "localeOverride", "weekStart"]

/-- The configuration fields that §6 of the specification says the core
consumes.  Stated from the specification's words, for comparison with
`ISettingsFieldNames`, which is taken from the source. -/
def specCoreConfigFields : List String :=
  ["tasksHeader", "blankLineAfterHeader", "preserveMovedTasks", "aliasLinks"]

/-! ## The preview post-processor (`renderMovedTasks`, `src/main.ts` 149–173)

A rendered `<li>` element is modelled as its class list together with its
list of direct child nodes; a child node is either a DOM text node
(`nodeType === 3`) or any other node, of which only the contributed text
content is retained.  The `<li>` items handed to the post-processor are
modelled as a flat list, matching the array materialised from
`el.getElementsByTagName('li')`. -/

/-- A direct child node of a list item: a DOM text node, or an element
node with the given text content. -/
inductive LINode where
  | textNode (s : String)
  | elemNode (s : String)
deriving DecidableEq

/-- A rendered `<li>` element: its CSS class list and its direct children. -/
structure LI where
  classes : List String
  children : List LINode
deriving DecidableEq

/-- The text contributed by one child node (`textContent`). -/
def nodeText : LINode → String
  | .textNode s => s
  | .elemNode s => s

/-- Whether a child node is a DOM text node (`nodeType === 3`). -/
def isTextNode : LINode → Bool
  | .textNode _ => true
  | .elemNode _ => false

/-- `listItem.getText()`: the concatenated text content of the item. -/
def getText (li : LI) : String :=
  String.join (li.children.map nodeText)

/-- `listItem.hasClass(c)`. -/
def hasClass (li : LI) (c : String) : Bool :=
  li.classes.contains c

/-- JavaScript `String.prototype.trimLeft` as used at `src/main.ts:157`:
drop leading whitespace characters. -/
def trimLeadWS (s : String) : String :=
  ⟨s.data.dropWhile Char.isWhitespace⟩

/-- JavaScript `startsWith('[>]')` as used at `src/main.ts:157`. -/
def startsWithMoved (s : String) : Bool :=
  match s.data with
  | '[' :: '>' :: ']' :: _ => true
  | _ => false

/-- JavaScript `slice(4)` as used at `src/main.ts:166`. -/
def sliceFrom4 (s : String) : String :=
  ⟨s.data.drop 4⟩

/-- The loop of `src/main.ts` lines 160–168: walk the direct children,
replace the text content of the first text node by its `slice(4)`, and
stop (`break`); non-text children are passed over. -/
def replaceFirstTextNode : List LINode → List LINode
  | [] => []
  | .textNode s :: rest => .textNode (sliceFrom4 s) :: rest
  | n :: rest => n :: replaceFirstTextNode rest

/-- The element produced by parsing `movedIconSvg` (`src/main.ts:171`);
an element node that contributes no visible text. -/
def movedIcon : LINode :=
  .elemNode ("")

/-- The body of `renderMovedTasks` for a single list item: the filter
condition of `src/main.ts` lines 154–158 and, when it holds, the
transformation of lines 159–172 (strip the first text node, add the
`task-list-item` class, prepend the icon element). -/
def processLI (li : LI) : LI :=
  if !hasClass li ("task-list-item") && startsWithMoved (trimLeadWS (getText li)) then
    { classes := li.classes ++ ["task-list-item"],
      children := movedIcon :: replaceFirstTextNode li.children }
  else li

/-- `renderMovedTasks` (`src/main.ts` 149–173) over the materialised array
of list items: the filter is evaluated on the pristine items before any
mutation, so each item is transformed independently. -/
def renderMovedTasks (items : List LI) : List LI :=
  items.map processLI

/-! ## The `file-open` callback (`src/main.ts` 45–62) -/

/-- An Obsidian `TFile`, of which the callback reads only `basename`. -/
structure TFile where
  basename : String
deriving DecidableEq

/-- The plugin instance state read and written by the callback: the
`settings` field and the `lastFile` field of `SlatedPlugin`. -/
structure PluginState where
  settings : ISettings
  lastFile : Option TFile
deriving DecidableEq

/-- The `file-open` event callback registered in `onload`
(`src/main.ts` 45–62).  A `null` file is modelled as `none`; `!file.basename`
is an empty basename.  The returned list holds the files passed to
`taskHandler.processFile`, in call order: the remembered previous file
first (when present), then the newly focused file. -/
def fileOpenCallback (file : Option TFile) (s : PluginState) : PluginState × List TFile :=
  match file with
  | none => (s, [])
  | some f =>
    if f.basename = "" then (s, [])
    else
      match s.lastFile with
      | some last => ({ s with lastFile := some f }, [last, f])
      | none => ({ s with lastFile := some f }, [f])

/-! ## Calendar dates and the task data model

The files implementing `TaskLine`, `TaskHandler` and `VaultIntermediate`
are not part of the repository snapshot; the definitions below are
modelled from the specification (§3, §4.1, §4.2). -/

/-- Modelled from the spec: a calendar date (§3 `dueDate`), year-month-day. -/
structure CalDate where
  y : Nat
  m : Nat
  d : Nat
deriving DecidableEq

/-- Modelled from the spec: the four task statuses of §3. -/
inductive TStatus where
  | todo
  | done
  | cancelled
  | moved
deriving DecidableEq

/-- Modelled from the spec: the interval unit of a repeat rule (§3). -/
inductive RUnit where
  | day
  | week
  | month
deriving DecidableEq

/-- Modelled from the spec: a repeat rule (§3): interval unit × count ×
optional explicit weekday set; the empty list is the absent set. -/
structure RepeatRule where
  unit : RUnit
  count : Nat
  weekdays : List Nat
deriving DecidableEq

/-- Modelled from the spec: the structured form of one checkbox line
(§3, there called `Task`; named `SlatedTask` here because Lean's core
library already declares `Task`).  `location` is not part of the value:
§3 notes it is recomputed on each scan and not persisted in the text. -/
structure SlatedTask where
  status : TStatus
  text : String
  dueDate : Option CalDate
  repeatRule : Option RepeatRule
  originRef : Option String
deriving DecidableEq

/-! ### Decimal numerals -/

/-- The character for a single decimal digit (used for digits `0`–`9`). -/
def digitChar : Nat → Char
  | 0 => '0'
  | 1 => '1'
  | 2 => '2'
  | 3 => '3'
  | 4 => '4'
  | 5 => '5'
  | 6 => '6'
  | 7 => '7'
  | 8 => '8'
  | _ => '9'

/-- The value of a decimal digit character; `10` for a non-digit. -/
def charDigit : Char → Nat
  | '0' => 0
  | '1' => 1
  | '2' => 2
  | '3' => 3
  | '4' => 4
  | '5' => 5
  | '6' => 6
  | '7' => 7
  | '8' => 8
  | '9' => 9
  | _ => 10

/-- Whether a character is a decimal digit. -/
def isDig (c : Char) : Bool :=
  charDigit c < 10

/-- Print a natural number as a decimal numeral (most significant digit
first). -/
def printNat (n : Nat) : List Char :=
  if n = 0 then ['0'] else ((Nat.digits 10 n).map digitChar).reverse

/-- Parse a nonempty all-digit character list as a decimal numeral. -/
def parseNat (cs : List Char) : Option Nat :=
  if cs ≠ [] ∧ cs.all isDig then
    some (Nat.ofDigits 10 ((cs.map charDigit).reverse))
  else none

/-! ### Dates as text -/

/-- Modelled from the spec: render a date as the `y-m-d` due-date text
(§4.1's due-date tag payload). -/
def printDate (d : CalDate) : List Char :=
  List.intercalate ['-'] [printNat d.y, printNat d.m, printNat d.d]

/-- Modelled from the spec: decode a `y-m-d` due-date payload. -/
def parseDate (cs : List Char) : Option CalDate :=
  match cs.splitOn '-' with
  | [a, b, c] =>
    match parseNat a, parseNat b, parseNat c with
    | some y, some m, some d => some ⟨y, m, d⟩
    | _, _, _ => none
  | _ => none

/-! ### Repeat rules as text -/

/-- The character encoding an interval unit. -/
def unitChar : RUnit → Char
  | .day => 'd'
  | .week => 'w'
  | .month => 'm'

/-- Decode an interval-unit character. -/
def charUnit : Char → Option RUnit
  | 'd' => some .day
  | 'w' => some .week
  | 'm' => some .month
  | _ => none

/-- Modelled from the spec: render a repeat rule as the payload of the
repeat tag (§4.1): the unit character, the count, and — when the weekday
set is present — a `:`-separated list of weekdays. -/
def encodeRule (r : RepeatRule) : List Char :=
  unitChar r.unit :: printNat r.count ++
    (match r.weekdays with
     | [] => []
     | ws => ':' :: List.intercalate [','] (ws.map printNat))

/-- Modelled from the spec: decode a repeat-tag payload. -/
def decodeRule (cs : List Char) : Option RepeatRule :=
  match cs with
  | [] => none
  | c :: rest =>
    match charUnit c with
    | none => none
    | some u =>
      match rest.splitOn ':' with
      | [a] => (parseNat a).map (fun n => ⟨u, n, []⟩)
      | [a, b] =>
        match parseNat a, (b.splitOn ',').mapM parseNat with
        | some n, some ws => some ⟨u, n, ws⟩
        | _, _ => none
      | _ => none

/-! ### The task line parser and serializer

Modelled from the spec (§4.1, §6): the implementation file
(`task-line.ts`) is not part of the repository snapshot.  A checkbox
line is `- [g] text tags…` where `g` is the status glyph (§6: open
`' '`, done `'x'`, cancelled `'-'`, moved `'>'`); the inline metadata
tags are trailing space-separated tokens `due:…`, `rep:…` and `from:…`,
accepted in any order (§4.1); a token that does not decode is left in
the text verbatim (§7 `MalformedMetadataTag`). -/

/-- The status glyph of a checkbox line (§6). -/
def statusChar : TStatus → Char
  | .todo => ' '
  | .done => 'x'
  | .cancelled => '-'
  | .moved => '>'

/-- Decode a status glyph (§6). -/
def charStatus : Char → Option TStatus
  | ' ' => some .todo
  | 'x' => some .done
  | '-' => some .cancelled
  | '>' => some .moved
  | _ => none

/-- A decoded metadata tag value: due date, repeat rule, or backlink. -/
inductive TagVal where
  | dueV (d : CalDate)
  | repV (r : RepeatRule)
  | fromV (s : String)
deriving DecidableEq

/-- Modelled from the spec: the due-date tag token (§4.1). -/
def dueTok (d : CalDate) : List Char :=
  'd' :: 'u' :: 'e' :: ':' :: printDate d

/-- Modelled from the spec: the repeat tag token (§4.1). -/
def repTok (r : RepeatRule) : List Char :=
  'r' :: 'e' :: 'p' :: ':' :: encodeRule r

/-- Modelled from the spec: the backlink tag token (§4.1). -/
def fromTok (s : String) : List Char :=
  'f' :: 'r' :: 'o' :: 'm' :: ':' :: s.data

/-- Decode one space-separated token as a metadata tag; `none` when the
token is not a (well-formed) tag and therefore belongs to the text. -/
def decodeTag : List Char → Option TagVal
  | 'd' :: 'u' :: 'e' :: ':' :: rest => (parseDate rest).map TagVal.dueV
  | 'r' :: 'e' :: 'p' :: ':' :: rest => (decodeRule rest).map TagVal.repV
  | 'f' :: 'r' :: 'o' :: 'm' :: ':' :: rest => some (TagVal.fromV ⟨rest⟩)
  | _ => none

/-- Split a word list into the leading text words and the decoded values
of the maximal trailing run of tag tokens (§4.1: tags are trailing and
order-independent). -/
def splitTagSuffix : List (List Char) → List (List Char) × List TagVal
  | [] => ([], [])
  | w :: rest =>
    match splitTagSuffix rest with
    | ([], tags) =>
      match decodeTag w with
      | some tv => ([], tv :: tags)
      | none => ([w], tags)
    | (tws, tags) => (w :: tws, tags)

/-- Record one decoded tag value on a task under construction. -/
def applyTag (t : SlatedTask) : TagVal → SlatedTask
  | .dueV d => { t with dueDate := some d }
  | .repV r => { t with repeatRule := some r }
  | .fromV s => { t with originRef := some s }

/-- The serialized tag tokens of a task, in canonical order
(due date, repeat rule, backlink). -/
def tagWords (t : SlatedTask) : List (List Char) :=
  (match t.dueDate with
   | some d => [dueTok d]
   | none => []) ++
  (match t.repeatRule with
   | some r => [repTok r]
   | none => []) ++
  (match t.originRef with
   | some s => [fromTok s]
   | none => [])

/-- Modelled from the spec: `serialize(Task) -> rawLine` (§4.1): the list
marker, the status glyph in brackets, then the text and the trailing tag
tokens separated by single spaces. -/
def serializeTask (t : SlatedTask) : String :=
  ⟨'-' :: ' ' :: '[' :: statusChar t.status :: ']' :: ' ' ::
    List.intercalate [' '] (t.text.data.splitOn ' ' ++ tagWords t)⟩

/-- Modelled from the spec: `parse(rawLine) -> Task | NotATask` (§4.1):
recognize the checkbox marker and status glyph, split the remainder into
space-separated words, peel the maximal trailing run of metadata tags
(order-independent), and keep the rest as the text.  A non-matching line
yields `none` (`NotATask`). -/
def parseTask (line : String) : Option SlatedTask :=
  match line.data with
  | '-' :: ' ' :: '[' :: g :: ']' :: ' ' :: rest =>
    match charStatus g with
    | none => none
    | some st =>
      let (tws, tags) := splitTagSuffix (rest.splitOn ' ')
      some (tags.foldl applyTag
        { status := st, text := ⟨List.intercalate [' '] tws⟩,
          dueDate := none, repeatRule := none, originRef := none })
  | _ => none

/-- A task in the image of `parseTask` (§4.1's "any Task produced by
`parse`"): the last space-separated word of its text is not itself a
decodable tag token (the parser would have consumed it), and its
backlink target contains no space (it must fit in one token). -/
def validTask (t : SlatedTask) : Bool :=
  (match (t.text.data.splitOn ' ').getLast? with
   | some w => (decodeTag w).isNone
   | none => true) &&
  (match t.originRef with
   | some s => s.data.all (fun c => c ≠ ' ')
   | none => true)

/-! ## The repeat rule evaluator

Modelled from the spec (§4.2): the implementation is not part of the
repository snapshot. -/

/-- Gregorian leap year. -/
def isLeap (y : Nat) : Bool :=
  (y % 4 == 0 && y % 100 != 0) || y % 400 == 0

/-- Days in a month of the Gregorian calendar (out-of-range months are
given 31 days; the evaluator only feeds it months `1`–`12`). -/
def daysInMonth (y m : Nat) : Nat :=
  match m with
  | 2 => if isLeap y then 29 else 28
  | 4 => 30
  | 6 => 30
  | 9 => 30
  | 11 => 30
  | _ => 31

/-- The calendar day after a date. -/
def nextDay (d : CalDate) : CalDate :=
  if d.d < daysInMonth d.y d.m then ⟨d.y, d.m, d.d + 1⟩
  else if d.m < 12 then ⟨d.y, d.m + 1, 1⟩
  else ⟨d.y + 1, 1, 1⟩

/-- Advance a date by a number of days. -/
def addDays (d : CalDate) : Nat → CalDate
  | 0 => d
  | n + 1 => nextDay (addDays d n)

/-- Day of week of a Gregorian date (Zeller's congruence; `0` is
Saturday). -/
def dayOfWeek (date : CalDate) : Nat :=
  let Y := if date.m < 3 then date.y - 1 else date.y
  let M := if date.m < 3 then date.m + 12 else date.m
  let K := Y % 100
  let J := Y / 100
  (date.d + 13 * (M + 1) / 5 + K + K / 4 + J / 4 + 5 * J) % 7

/-- Strict chronological order on calendar dates (year, then month, then
day). -/
def dateLt (a b : CalDate) : Prop :=
  a.y < b.y ∨ (a.y = b.y ∧ (a.m < b.m ∨ (a.m = b.m ∧ a.d < b.d)))

instance (a b : CalDate) : Decidable (dateLt a b) := by
  unfold dateLt
  infer_instance

/-- Modelled from the spec: a valid repeat rule (§4.2, §3): a positive
interval count, and every member of the weekday set an actual weekday. -/
def validRule (r : RepeatRule) : Prop :=
  1 ≤ r.count ∧ ∀ w ∈ r.weekdays, w < 7

instance (r : RepeatRule) : Decidable (validRule r) := by
  unfold validRule
  infer_instance

/-- The number of days (between 1 and 7) to the earliest date strictly
after `d` whose day of week lies in `ws`; the fallback `7` is only
reached when no day of the following week matches. -/
def nextWeekdayStep (d : CalDate) (ws : List Nat) : Nat :=
  (((List.range 7).map (· + 1)).find?
    (fun k => ws.contains (dayOfWeek (addDays d k)))).getD 7

/-- Modelled from the spec: `nextOccurrence(rule, fromDate) -> date`
(§4.2).  Day rule: `fromDate + count` days.  Week rule with an explicit
weekday set: the earliest date strictly after `fromDate` falling on one
of the weekdays (searched among the next seven days, which cover every
weekday); without a set, `fromDate + 7·count` days.  Month rule: the
same day-of-month `count` months later, clamped to the last valid day of
the target month.  The function is pure and total. -/
def nextOccurrence (r : RepeatRule) (d : CalDate) : CalDate :=
  match r.unit with
  | .day => addDays d r.count
  | .week =>
    match r.weekdays with
    | [] => addDays d (7 * r.count)
    | ws => addDays d (nextWeekdayStep d ws)
  | .month =>
    ⟨d.y + ((d.m - 1) + r.count) / 12,
     ((d.m - 1) + r.count) % 12 + 1,
     min d.d (daysInMonth (d.y + ((d.m - 1) + r.count) / 12)
       (((d.m - 1) + r.count) % 12 + 1))⟩

/-! ## The note store and the relocation engine

Modelled from the spec (§4.3, §4.4, §7): the implementation files
(`task-handler.ts`, `vault.ts`, the move/repeat actions of
`task-line.ts`) are not part of the repository snapshot. -/

/-- A note identifier (§3: a note is identified by date or title). -/
abbrev NoteId := String

/-- Modelled from the spec: the note store (§4.3) — the text of every
note, as an association list from note id to its ordered lines. -/
abbrev Store := List (NoteId × List String)

/-- Read a note's lines (`readLines`, §4.3). -/
def lookupStore (st : Store) (id : NoteId) : Option (List String) :=
  (st.find? (fun p => p.1 == id)).map (fun p => p.2)

/-- Atomically replace a note's lines (`writeLines`, §4.3), creating the
note when absent. -/
def updateStore (st : Store) (id : NoteId) (lines : List String) : Store :=
  match st with
  | [] => [(id, lines)]
  | p :: rest =>
    if p.1 == id then (id, lines) :: rest
    else p :: updateStore rest id lines

/-- Modelled from the spec: `resolveNote(date)` (§4.3) — the note
conventionally associated with a date. -/
def noteIdForDate (d : CalDate) : NoteId :=
  String.mk (printDate d)

/-- Modelled from the spec: the configuration snapshot the core consumes
per §6 (`tasksHeader`, `blankLineAfterHeader`, `preserveMovedTasks`,
`aliasLinks`). -/
structure CoreSettings where
  tasksHeader : String
  blankLineAfterHeader : Bool
  preserveMovedTasks : Bool
  aliasLinks : Bool
deriving DecidableEq

/-- Modelled from the spec: `insertUnderHeader` (§4.3): when the header
exists verbatim, insert the new line right after it (after its trailing
blank line when the blank-line rule is on, adding the blank line when
absent); otherwise append a blank separator, the header, the optional
blank line and the new line. -/
def insertUnderHeader (header : String) (blankAfter : Bool)
    (lines : List String) (newLine : String) : List String :=
  match lines.findIdx? (fun l => l == header) with
  | some i =>
    let pre := lines.take (i + 1)
    let post := lines.drop (i + 1)
    if blankAfter then
      match post with
      | "" :: post2 => pre ++ "" :: newLine :: post2
      | _ => pre ++ "" :: newLine :: post
    else pre ++ newLine :: post
  | none =>
    (if lines.isEmpty then [] else lines ++ [""]) ++
      [header] ++ (if blankAfter then [""] else []) ++ [newLine]

/-- Modelled from the spec: the backlink text, rendered with the
configured alias policy (§4.4 step 2, §6 `aliasLinks`). -/
def backlinkText (cfg : CoreSettings) (id : NoteId) : String :=
  if cfg.aliasLinks then "[[" ++ id ++ "|Origin]]" else "[[" ++ id ++ "]]"

/-- Modelled from the spec: the `Moved`-status stub left at the origin
(§4.4 step 4): a moved-glyph line whose text is exactly the backlink
token (§3). -/
def stubLine (cfg : CoreSettings) (destId : NoteId) : String :=
  serializeTask ⟨.moved, backlinkText cfg destId, none, none, none⟩

/-- Modelled from the spec: the relocation error signals of §7 that the
engine itself raises. -/
inductive RelocError where
  | destinationUnavailable
  | concurrentModificationConflict
deriving DecidableEq

/-- Modelled from the spec: the relocation transaction of §4.4, §7, for
a source task `t` parsed earlier from line `idx` of note `originId`,
when that line read as `expectedLine`.  Two-phase: first read the origin
and validate that the target line still equals `expectedLine` (otherwise
abort with `ConcurrentModificationConflict` and no mutation at all, §7),
then build the destination line (status reset to `Todo`, due date set to
the destination date, repeat rule carried over, backlink per policy),
insert it under the configured header, and finally rewrite or delete the
origin line, skipping the origin write when nothing changed (§4.4 step
5).  The returned store reflects both committed writes, or is the input
store unchanged on an abort. -/
def relocateTask (cfg : CoreSettings) (store : Store) (originId : NoteId)
    (idx : Nat) (expectedLine : String) (t : SlatedTask) (destDate : CalDate) :
    Store × Option RelocError :=
  match lookupStore store originId with
  | none => (store, some .concurrentModificationConflict)
  | some originLines =>
    if originLines.get? idx ≠ some expectedLine then
      (store, some .concurrentModificationConflict)
    else
      let destId := noteIdForDate destDate
      let destLines := (lookupStore store destId).getD []
      let newTask : SlatedTask :=
        { t with
          status := .todo,
          dueDate := some destDate,
          originRef :=
            if cfg.preserveMovedTasks then some (backlinkText cfg originId)
            else t.originRef }
      let destLines2 :=
        insertUnderHeader cfg.tasksHeader cfg.blankLineAfterHeader destLines
          (serializeTask newTask)
      let store1 := updateStore store destId destLines2
      let originLines2 :=
        if cfg.preserveMovedTasks then
          originLines.set idx (stubLine cfg destId)
        else originLines.eraseIdx idx
      let store2 :=
        if originLines2 = originLines then store1
        else updateStore store1 originId originLines2
      (store2, none)

/-! ## The file-focus scan controller's serialization

Modelled from the spec (§4.5, §5): `TaskHandler.processFile` is not part
of the repository snapshot; per §4.5 it processes at most one note's
scan at a time and a scan requested while one is in flight enqueues.
The controller is modelled as a state machine: a `focus` event runs the
`file-open` callback of `src/main.ts` and enqueues the requested scans;
a `start` step begins the next queued scan only when none is in
progress; a `commit` step completes the in-flight scan (including its
relocations, §5).  `start` and `commit` steps may be interleaved with
further `focus` events arbitrarily. -/

/-- The scan controller state: the plugin state of `main.ts`, the queue
of requested scans, and the scan currently in progress (if any). -/
structure ScanState where
  plugin : PluginState
  queue : List TFile
  inProgress : Option TFile
deriving DecidableEq

/-- An externally visible scheduling event. -/
inductive ScanEvent where
  | focus (file : Option TFile)
  | start
  | commit
deriving DecidableEq

/-- An observable scheduling action: a scan starting, or a scan (with
its relocations) committing. -/
inductive ScanAction where
  | started (f : TFile)
  | committed (f : TFile)
deriving DecidableEq

/-- One controller step: the new state and the emitted actions. -/
def scanStep (s : ScanState) : ScanEvent → ScanState × List ScanAction
  | .focus file =>
    ({ s with
        plugin := (fileOpenCallback file s.plugin).1,
        queue := s.queue ++ (fileOpenCallback file s.plugin).2 }, [])
  | .start =>
    match s.inProgress, s.queue with
    | none, f :: q => ({ s with queue := q, inProgress := some f }, [.started f])
    | _, _ => (s, [])
  | .commit =>
    match s.inProgress with
    | some f => ({ s with inProgress := none }, [.committed f])
    | none => (s, [])

/-- Run the controller over a list of events, collecting the actions. -/
def scanRun (s : ScanState) : List ScanEvent → ScanState × List ScanAction
  | [] => (s, [])
  | e :: es =>
    ((scanRun (scanStep s e).1 es).1,
      (scanStep s e).2 ++ (scanRun (scanStep s e).1 es).2)

/-- The controller state right after `onload`: default settings loaded,
no previous file, nothing queued, nothing in progress. -/
def initScanState : ScanState :=
  ⟨⟨defaultSettings, none⟩, [], none⟩

/-- How many scans have started in an action trace. -/
def countStarted (tr : List ScanAction) : Nat :=
  tr.countP (fun a => match a with | .started _ => true | _ => false)

/-- How many scans have committed in an action trace. -/
def countCommitted (tr : List ScanAction) : Nat :=
  tr.countP (fun a => match a with | .committed _ => true | _ => false)

/-- How many scans a controller state has in flight (zero or one). -/
def pendingOf (s : ScanState) : Nat :=
  if s.inProgress.isSome then 1 else 0

/-- Decode a whole word list as tag tokens, failing if any word is not
a tag. -/
def decodeAllTags : List (List Char) → Option (List TagVal)
  | [] => some []
  | w :: ws =>
    match decodeTag w, decodeAllTags ws with
    | some v, some vs => some (v :: vs)
    | _, _ => none

/-! ## Helper lemmas -/

/-- The child-walking loop replaces exactly the first text node when all
preceding children are non-text nodes. -/
theorem replaceFirstTextNode_eq (pre post : List LINode) (s : String)
    (h : ∀ n ∈ pre, isTextNode n = false) :
    replaceFirstTextNode (pre ++ LINode.textNode s :: post) =
      pre ++ LINode.textNode (sliceFrom4 s) :: post := by
  induction pre with
  | nil => rfl
  | cons n rest ih =>
    cases n with
    | textNode t =>
      have := h (LINode.textNode t) (by simp)
      simp [isTextNode] at this
    | elemNode t =>
      simp only [List.cons_append, replaceFirstTextNode]
      exact congrArg _ (ih (fun n hn => h n (by simp [hn])))

/-- `processLI` is idempotent: a transformed item carries the
`task-list-item` class, which the filter excludes. -/
theorem processLI_idem (li : LI) : processLI (processLI li) = processLI li := by
  unfold processLI
  by_cases h :
      (!hasClass li ("task-list-item") &&
        startsWithMoved (trimLeadWS (getText li))) = true
  · rw [if_pos h]
    have hc : hasClass
        ⟨li.classes ++ ["task-list-item"],
          movedIcon :: replaceFirstTextNode li.children⟩ ("task-list-item")
        = true := by
      simp [hasClass]
    simp [hc]
  · rw [if_neg h, if_neg h]

/-! ## Claims -/

/-- C1: a rendered list item not yet marked `task-list-item` whose text
content, after trimming leading whitespace, starts with the moved glyph
`[>]` gets exactly the first 4 characters of its first text node
removed, is marked `task-list-item`, and has the icon element
prepended; every other list item is left unchanged. -/
theorem C1_preview_strips_moved_glyph (li : LI) :
    (∀ pre s post,
        li.children = pre ++ LINode.textNode s :: post →
        (∀ n ∈ pre, isTextNode n = false) →
        hasClass li ("task-list-item") = false →
        startsWithMoved (trimLeadWS (getText li)) = true →
        processLI li =
          ⟨li.classes ++ ["task-list-item"],
           movedIcon :: (pre ++ LINode.textNode (sliceFrom4 s) :: post)⟩) ∧
    (hasClass li ("task-list-item") = true ∨
        startsWithMoved (trimLeadWS (getText li)) = false →
      processLI li = li) := by
  constructor
  · intro pre s post hch hpre hcls hmv
    unfold processLI
    rw [hcls, hmv]
    simp only [Bool.not_false, Bool.and_self, if_pos]
    rw [hch, replaceFirstTextNode_eq pre post s hpre]
  · intro h
    unfold processLI
    rcases h with h | h <;> simp [h]

/-- C1 witness: a matching item is transformed as stated; an item
already marked `task-list-item` is unchanged. -/
theorem C1_witness :
    processLI ⟨[], [LINode.textNode ("[>] Buy milk")]⟩ =
      ⟨["task-list-item"], [movedIcon, LINode.textNode ("Buy milk")]⟩ ∧
    processLI ⟨["task-list-item"], [LINode.textNode ("[>] x")]⟩ =
      ⟨["task-list-item"], [LINode.textNode ("[>] x")]⟩ := by
  constructor
  · exact ((C1_preview_strips_moved_glyph ⟨[], [LINode.textNode ("[>] Buy milk")]⟩).1
      [] ("[>] Buy milk") [] rfl (by simp) (by decide) (by decide)).trans (by decide)
  · exact (C1_preview_strips_moved_glyph
      ⟨["task-list-item"], [LINode.textNode ("[>] x")]⟩).2 (Or.inl (by decide))

/-- C2: on a focus-change notification carrying a valid newly focused
note, when a previously focused note is remembered, the callback
requests a scan of the previous note and then of the new note, in that
call order, and remembers the new note. -/
theorem C2_focus_scans_previous_then_new (p f : TFile) (st : PluginState)
    (h1 : st.lastFile = some p) (h2 : f.basename ≠ "") :
    fileOpenCallback (some f) st = ({ st with lastFile := some f }, [p, f]) := by
  unfold fileOpenCallback
  rw [h1]
  simp [h2]

/-- C2 witness at a concrete state and file. -/
theorem C2_witness :
    fileOpenCallback (some ⟨"day2"⟩) ⟨defaultSettings, some ⟨"day1"⟩⟩ =
      (⟨defaultSettings, some ⟨"day2"⟩⟩, [⟨"day1"⟩, ⟨"day2"⟩]) :=
  C2_focus_scans_previous_then_new ⟨"day1"⟩ ⟨"day2"⟩
    ⟨defaultSettings, some ⟨"day1"⟩⟩ rfl (by decide)

/-- C9: a focus-change event whose file is null or has an empty basename
is ignored entirely (no scan, remembered previous note unchanged), and
the first valid focus event after load scans only the new note. -/
theorem C9_invalid_focus_ignored (st : PluginState) (f : TFile) :
    fileOpenCallback none st = (st, []) ∧
    (f.basename = "" → fileOpenCallback (some f) st = (st, [])) ∧
    (st.lastFile = none → f.basename ≠ "" →
      fileOpenCallback (some f) st = ({ st with lastFile := some f }, [f])) := by
  refine ⟨rfl, ?_, ?_⟩
  · intro h
    unfold fileOpenCallback
    simp [h]
  · intro hl h
    unfold fileOpenCallback
    rw [hl]
    simp [h]

/-- C9 witness: the empty-basename case and the first-valid-event case
at concrete states. -/
theorem C9_witness :
    fileOpenCallback (some ⟨""⟩) ⟨defaultSettings, some ⟨"day1"⟩⟩ =
      (⟨defaultSettings, some ⟨"day1"⟩⟩, []) ∧
    fileOpenCallback (some ⟨"day1"⟩) ⟨defaultSettings, none⟩ =
      (⟨defaultSettings, some ⟨"day1"⟩⟩, [⟨"day1"⟩]) :=
  ⟨(C9_invalid_focus_ignored ⟨defaultSettings, some ⟨"day1"⟩⟩ ⟨""⟩).2.1 rfl,
   (C9_invalid_focus_ignored ⟨defaultSettings, none⟩ ⟨"day1"⟩).2.2 rfl (by decide)⟩

/-- C10: the moved-task preview post-processor is idempotent — applying
it a second time to already-processed output changes nothing, because
processed items carry the `task-list-item` class and are skipped. -/
theorem C10_preview_idempotent (items : List LI) :
    renderMovedTasks (renderMovedTasks items) = renderMovedTasks items := by
  unfold renderMovedTasks
  rw [List.map_map]
  exact List.map_congr_left (fun li _ => processLI_idem li)

/-- C8: `settingsWithDefaults` keeps every present field, fills every
absent field with its default (`## Tasks`, `true`, `false`,
`system-default`, `locale`), and is idempotent. -/
theorem C8_settingsWithDefaults_spec (s : PartialISettings) :
    ((∀ v, s.tasksHeader = some v → (settingsWithDefaults s).tasksHeader = v) ∧
      (s.tasksHeader = none → (settingsWithDefaults s).tasksHeader = "## Tasks")) ∧
    ((∀ v, s.blankLineAfterHeader = some v →
        (settingsWithDefaults s).blankLineAfterHeader = v) ∧
      (s.blankLineAfterHeader = none →
        (settingsWithDefaults s).blankLineAfterHeader = true)) ∧
    ((∀ v, s.preserveMovedTasks = some v →
        (settingsWithDefaults s).preserveMovedTasks = v) ∧
      (s.preserveMovedTasks = none →
        (settingsWithDefaults s).preserveMovedTasks = false)) ∧
    ((∀ v, s.localeOverride = some v →
        (settingsWithDefaults s).localeOverride = v) ∧
      (s.localeOverride = none →
        (settingsWithDefaults s).localeOverride = "system-default")) ∧
    ((∀ v, s.weekStart = some v → (settingsWithDefaults s).weekStart = v) ∧
      (s.weekStart = none → (settingsWithDefaults s).weekStart = "locale")) ∧
    settingsWithDefaults (asPartialSettings (settingsWithDefaults s)) =
      settingsWithDefaults s := by
  refine ⟨⟨?_, ?_⟩, ⟨?_, ?_⟩, ⟨?_, ?_⟩, ⟨?_, ?_⟩, ⟨?_, ?_⟩, rfl⟩ <;>
    intro h <;> try intro hh
  all_goals simp_all [settingsWithDefaults, defaultSettings]

/-- C8 witness: a present field is kept, an absent field takes its
default, and the result is a fixed point. -/
theorem C8_witness :
    (settingsWithDefaults ⟨some ("My Tasks"), none, none, none, none⟩).tasksHeader
        = "My Tasks" ∧
    (settingsWithDefaults
        ⟨some ("My Tasks"), none, none, none, none⟩).blankLineAfterHeader = true :=
  ⟨(C8_settingsWithDefaults_spec ⟨some ("My Tasks"), none, none, none, none⟩).1.1
      ("My Tasks") rfl,
   (C8_settingsWithDefaults_spec ⟨some ("My Tasks"), none, none, none, none⟩).2.1.2
      rfl⟩

/-- C4 counterexample: the claim's four-field configuration surface does
not match the source: `aliasLinks` is among the fields the specification
names but is not a field of the `ISettings` interface of
`src/settings.ts`, which declares five fields. -/
theorem C4_counterexample :
    ("aliasLinks") ∈ specCoreConfigFields ∧
    ("aliasLinks") ∉ ISettingsFieldNames ∧
    ISettingsFieldNames.length = 5 := by
  decide

/-- C4 (amended): the settings interface consists of the five fields
`tasksHeader`, `blankLineAfterHeader`, `preserveMovedTasks`,
`localeOverride` and `weekStart` — `aliasLinks` is not declared — and
the core's `file-open` callback neither mutates nor replaces any
settings field. -/
theorem C4_amended_settings_surface :
    ISettingsFieldNames =
      ["tasksHeader", "blankLineAfterHeader", "preserveMovedTasks",
       "localeOverride", "weekStart"] ∧
    ∀ file s, ((fileOpenCallback file s).1).settings = s.settings := by
  refine ⟨rfl, ?_⟩
  intro file s
  rcases file with _ | f
  · rfl
  · by_cases h : f.basename = ""
    · simp [fileOpenCallback, h]
    · cases hl : s.lastFile <;> simp [fileOpenCallback, h, hl]

/-- Chronological order on dates is transitive. -/
theorem dateLt_trans {a b c : CalDate} (h1 : dateLt a b) (h2 : dateLt b c) :
    dateLt a c := by
  unfold dateLt at h1 h2 ⊢
  omega

/-- The next calendar day is strictly later. -/
theorem dateLt_nextDay (d : CalDate) : dateLt d (nextDay d) := by
  unfold nextDay dateLt
  split_ifs <;> simp

/-- Advancing by at least one day gives a strictly later date. -/
theorem dateLt_addDays (d : CalDate) (n : Nat) (h : 1 ≤ n) :
    dateLt d (addDays d n) := by
  induction n with
  | zero => exact absurd h (by omega)
  | succ k ih =>
    rcases Nat.eq_zero_or_pos k with hk | hk
    · subst hk
      exact dateLt_nextDay d
    · exact dateLt_trans (ih hk) (dateLt_nextDay (addDays d k))

/-- The weekday search advances by at least one day. -/
theorem one_le_nextWeekdayStep (d : CalDate) (ws : List Nat) :
    1 ≤ nextWeekdayStep d ws := by
  unfold nextWeekdayStep
  cases hf : ((List.range 7).map (· + 1)).find?
      (fun k => ws.contains (dayOfWeek (addDays d k))) with
  | none => simp
  | some k =>
    have hk := List.mem_of_find?_eq_some hf
    simp only [List.mem_map, List.mem_range] at hk
    obtain ⟨j, _, hj⟩ := hk
    simp [Option.getD]
    omega

/-- C6: for every valid repeat rule and calendar date, `nextOccurrence`
succeeds (it is a total function into dates), returns a date strictly
after `fromDate`, and is deterministic — being pure, equal inputs give
equal outputs. -/
theorem C6_nextOccurrence_strictly_later (r : RepeatRule) (d : CalDate)
    (h : validRule r) :
    dateLt d (nextOccurrence r d) ∧
    ∀ r2 d2, r2 = r → d2 = d → nextOccurrence r2 d2 = nextOccurrence r d := by
  refine ⟨?_, by intro r2 d2 h1 h2; rw [h1, h2]⟩
  obtain ⟨hc, -⟩ := h
  unfold nextOccurrence
  cases hu : r.unit with
  | day => exact dateLt_addDays d r.count hc
  | week =>
    cases hws : r.weekdays with
    | nil => exact dateLt_addDays d (7 * r.count) (by omega)
    | cons w ws =>
      exact dateLt_addDays d (nextWeekdayStep d (w :: ws))
        (one_le_nextWeekdayStep d (w :: ws))
  | month =>
    have hdm := Nat.div_add_mod ((d.m - 1) + r.count) 12
    unfold dateLt
    simp only
    omega

/-- C6 witness: the month rule anchored on January 31 fires strictly
later. -/
theorem C6_witness :
    validRule ⟨.month, 1, []⟩ ∧
    dateLt ⟨2020, 1, 31⟩ (nextOccurrence ⟨.month, 1, []⟩ ⟨2020, 1, 31⟩) :=
  ⟨by decide,
   (C6_nextOccurrence_strictly_later ⟨.month, 1, []⟩ ⟨2020, 1, 31⟩ (by decide)).1⟩

/-- C7: when the origin note's target line no longer matches the line
from which the task was parsed (or the origin note cannot be read), the
relocation aborts with `ConcurrentModificationConflict`, the store is
returned unchanged — no mutation of the origin note, and the destination
note unmodified, so no dangling duplicate copy exists. -/
theorem C7_conflict_aborts (cfg : CoreSettings) (store : Store)
    (originId : NoteId) (idx : Nat) (expectedLine : String) (t : SlatedTask)
    (destDate : CalDate)
    (h : ∀ ls, lookupStore store originId = some ls →
      ls.get? idx ≠ some expectedLine) :
    relocateTask cfg store originId idx expectedLine t destDate =
      (store, some RelocError.concurrentModificationConflict) := by
  unfold relocateTask
  cases hl : lookupStore store originId with
  | none => rfl
  | some ls =>
    dsimp only
    rw [if_pos (h ls hl)]

/-- C7 witness: a one-note store whose line 0 differs from the line the
task was parsed from; the relocation conflicts and the store is
untouched. -/
theorem C7_witness :
    relocateTask ⟨"## Tasks", true, true, false⟩ [(("day1"), ["- [ ] task"])]
        ("day1") 0 ("- [x] task") ⟨.done, "task", none, none, none⟩
        ⟨2020, 1, 2⟩ =
      ([(("day1"), ["- [ ] task"])],
        some RelocError.concurrentModificationConflict) :=
  C7_conflict_aborts ⟨"## Tasks", true, true, false⟩
    [(("day1"), ["- [ ] task"])] ("day1") 0 ("- [x] task")
    ⟨.done, "task", none, none, none⟩ ⟨2020, 1, 2⟩
    (by
      intro ls hl
      have hls : ls = ["- [ ] task"] := by
        have hv : lookupStore [(("day1"), ["- [ ] task"])] ("day1") =
            some ["- [ ] task"] := by decide
        rw [hv] at hl
        exact (Option.some.inj hl).symm
      subst hls
      decide)

/-- Splitting the action counts over a cons. -/
theorem count_cons_split (a : ScanAction) (tr : List ScanAction) :
    countStarted (a :: tr) = countStarted tr + countStarted [a] ∧
    countCommitted (a :: tr) = countCommitted tr + countCommitted [a] := by
  cases a <;> simp [countStarted, countCommitted, List.countP_cons]

/-- Extending prefix balance bounds across one prepended action, for an
action whose start/commit counts relate the old and new pending scans by
`countStarted [a] + p = countCommitted [a] + p2`. -/
theorem prefix_cons_bound (a : ScanAction) (tr2 : List ScanAction) (p p2 : Nat)
    (hp : p ≤ 1)
    (hrel : countStarted [a] + p = countCommitted [a] + p2)
    (hP : ∀ n, countCommitted (tr2.take n) ≤ countStarted (tr2.take n) + p2 ∧
        countStarted (tr2.take n) + p2 ≤ countCommitted (tr2.take n) + 1) :
    ∀ n, countCommitted ((a :: tr2).take n) ≤
          countStarted ((a :: tr2).take n) + p ∧
        countStarted ((a :: tr2).take n) + p ≤
          countCommitted ((a :: tr2).take n) + 1 := by
  intro n
  cases n with
  | zero =>
    simp [countStarted, countCommitted]
    omega
  | succ k =>
    rw [List.take_succ_cons]
    have h := hP k
    have ha := count_cons_split a (tr2.take k)
    omega

/-- The scan controller invariant: starting from any state, every prefix
of the emitted action trace keeps the number of in-flight scans
(`pending + started − committed`) between `0` and `1`, and the final
state's pending count balances the trace. -/
theorem scanRun_serialized (es : List ScanEvent) : ∀ s : ScanState,
    (∀ n, countCommitted (((scanRun s es).2).take n) ≤
            countStarted (((scanRun s es).2).take n) + pendingOf s ∧
          countStarted (((scanRun s es).2).take n) + pendingOf s ≤
            countCommitted (((scanRun s es).2).take n) + 1) ∧
    countStarted (scanRun s es).2 + pendingOf s =
      countCommitted (scanRun s es).2 + pendingOf (scanRun s es).1 := by
  induction es with
  | nil =>
    intro s
    have hp : pendingOf s ≤ 1 := by
      unfold pendingOf
      split <;> omega
    refine ⟨?_, by simp [scanRun, countStarted, countCommitted]⟩
    intro n
    simp [scanRun, countStarted, countCommitted]
    omega
  | cons e es ih =>
    intro s
    have hrun : scanRun s (e :: es) =
        ((scanRun (scanStep s e).1 es).1,
          (scanStep s e).2 ++ (scanRun (scanStep s e).1 es).2) := rfl
    have hp : pendingOf s ≤ 1 := by
      unfold pendingOf
      split <;> omega
    cases e with
    | focus file =>
      obtain ⟨ihP, ihB⟩ := ih (scanStep s (.focus file)).1
      have hpend : pendingOf (scanStep s (.focus file)).1 = pendingOf s := rfl
      rw [hrun]
      dsimp only
      rw [show (scanStep s (.focus file)).2 = [] from rfl, List.nil_append]
      rw [hpend] at ihP ihB
      exact ⟨ihP, ihB⟩
    | start =>
      cases hip : s.inProgress with
      | some f =>
        have hstep : scanStep s .start = (s, []) := by
          simp [scanStep, hip]
        obtain ⟨ihP, ihB⟩ := ih (scanStep s .start).1
        rw [hstep] at ihP ihB
        rw [hrun, hstep]
        dsimp only
        rw [List.nil_append]
        exact ⟨ihP, ihB⟩
      | none =>
        cases hq : s.queue with
        | nil =>
          have hstep : scanStep s .start = (s, []) := by
            simp [scanStep, hip, hq]
          obtain ⟨ihP, ihB⟩ := ih (scanStep s .start).1
          rw [hstep] at ihP ihB
          rw [hrun, hstep]
          dsimp only
          rw [List.nil_append]
          exact ⟨ihP, ihB⟩
        | cons f q =>
          have hstep : scanStep s .start =
              ({ s with queue := q, inProgress := some f }, [.started f]) := by
            simp [scanStep, hip, hq]
          obtain ⟨ihP, ihB⟩ := ih { s with queue := q, inProgress := some f }
          have hp0 : pendingOf s = 0 := by
            simp [pendingOf, hip]
          have hp2 :
              pendingOf ({ s with queue := q, inProgress := some f } : ScanState)
                = 1 := by
            simp [pendingOf]
          rw [hp2] at ihP ihB
          rw [hrun, hstep]
          dsimp only
          rw [List.cons_append, List.nil_append]
          constructor
          · exact prefix_cons_bound (.started f) _ (pendingOf s) 1 hp
              (by simp [countStarted, countCommitted, hp0]) ihP
          · have hc := count_cons_split (.started f)
              (scanRun ({ s with queue := q, inProgress := some f }) es).2
            have hc2 : countStarted [ScanAction.started f] = 1 ∧
                countCommitted [ScanAction.started f] = 0 := by
              simp [countStarted, countCommitted]
            omega
    | commit =>
      cases hip : s.inProgress with
      | none =>
        have hstep : scanStep s .commit = (s, []) := by
          simp [scanStep, hip]
        obtain ⟨ihP, ihB⟩ := ih (scanStep s .commit).1
        rw [hstep] at ihP ihB
        rw [hrun, hstep]
        dsimp only
        rw [List.nil_append]
        exact ⟨ihP, ihB⟩
      | some f =>
        have hstep : scanStep s .commit =
            ({ s with inProgress := none }, [.committed f]) := by
          simp [scanStep, hip]
        obtain ⟨ihP, ihB⟩ := ih { s with inProgress := none }
        have hp1 : pendingOf s = 1 := by
          simp [pendingOf, hip]
        have hp2 :
            pendingOf ({ s with inProgress := none } : ScanState) = 0 := by
          simp [pendingOf]
        rw [hp2] at ihP ihB
        rw [hrun, hstep]
        dsimp only
        rw [List.cons_append, List.nil_append]
        constructor
        · exact prefix_cons_bound (.committed f) _ (pendingOf s) 0 hp
            (by simp [countStarted, countCommitted, hp1]) ihP
        · have hc := count_cons_split (.committed f)
            (scanRun ({ s with inProgress := none }) es).2
          have hc2 : countStarted [ScanAction.committed f] = 0 ∧
              countCommitted [ScanAction.committed f] = 1 := by
            simp [countStarted, countCommitted]
          omega

/-- C3: for any sequence of focus-change (and scheduling) events from
the freshly loaded controller, at most one note scan is in progress at
any point of the emitted action trace — in every prefix the number of
started scans exceeds the committed ones by at most one — and whenever a
scan starts, every previously started scan (with its relocations) has
already committed: a scan requested while one is in flight waits in the
queue rather than interleaving. -/
theorem C3_scans_serialized (es : List ScanEvent) (n : Nat) :
    countStarted (((scanRun initScanState es).2).take n) ≤
      countCommitted (((scanRun initScanState es).2).take n) + 1 ∧
    countCommitted (((scanRun initScanState es).2).take n) ≤
      countStarted (((scanRun initScanState es).2).take n) ∧
    ∀ f, ((scanRun initScanState es).2)[n]? = some (ScanAction.started f) →
      countStarted (((scanRun initScanState es).2).take n) =
        countCommitted (((scanRun initScanState es).2).take n) := by
  have h := (scanRun_serialized es initScanState).1
  have hp : pendingOf initScanState = 0 := rfl
  rw [hp] at h
  have h1 := h n
  refine ⟨by omega, by omega, ?_⟩
  intro f hf
  have h2 := h (n + 1)
  have htake : ((scanRun initScanState es).2).take (n + 1) =
      ((scanRun initScanState es).2).take n ++ [ScanAction.started f] := by
    rw [List.take_succ, hf]
    rfl
  rw [htake] at h2
  have hsplit :
      countStarted (((scanRun initScanState es).2).take n ++
          [ScanAction.started f]) =
        countStarted (((scanRun initScanState es).2).take n) + 1 ∧
      countCommitted (((scanRun initScanState es).2).take n ++
          [ScanAction.started f]) =
        countCommitted (((scanRun initScanState es).2).take n) := by
      constructor <;> simp [countStarted, countCommitted, List.countP_append]
  omega

/-- C3 witness: after focusing a note, starting and committing its scan,
then focusing another note and starting the next scan, the third action
is a start and the prefix before it is balanced. -/
theorem C3_witness :
    countStarted (((scanRun initScanState
        [ScanEvent.focus (some ⟨"a"⟩), ScanEvent.start, ScanEvent.commit,
         ScanEvent.focus (some ⟨"b"⟩), ScanEvent.start]).2).take 2) =
      countCommitted (((scanRun initScanState
        [ScanEvent.focus (some ⟨"a"⟩), ScanEvent.start, ScanEvent.commit,
         ScanEvent.focus (some ⟨"b"⟩), ScanEvent.start]).2).take 2) :=
  (C3_scans_serialized
      [ScanEvent.focus (some ⟨"a"⟩), ScanEvent.start, ScanEvent.commit,
       ScanEvent.focus (some ⟨"b"⟩), ScanEvent.start] 2).2.2
    ⟨"a"⟩ (by decide)

/-- Status glyphs decode back to their status. -/
theorem charStatus_statusChar (st : TStatus) : charStatus (statusChar st) = some st := by
  cases st <;> rfl

/-- Digit characters decode back to their digit. -/
theorem charDigit_digitChar (d : Nat) (h : d < 10) : charDigit (digitChar d) = d := by
  interval_cases d <;> rfl

/-- Digit characters are digits. -/
theorem isDig_digitChar (d : Nat) (h : d < 10) : isDig (digitChar d) = true := by
  interval_cases d <;> rfl

/-- A digit character is none of the separator characters. -/
theorem isDig_ne_sep (c : Char) (h : isDig c = true) :
    c ≠ ' ' ∧ c ≠ '-' ∧ c ≠ ':' ∧ c ≠ ',' := by
  refine ⟨?_, ?_, ?_, ?_⟩ <;> rintro rfl <;> exact absurd h (by decide)

/-- Decimal numerals are never empty. -/
theorem printNat_ne_nil (n : Nat) : printNat n ≠ [] := by
  unfold printNat
  split
  · simp
  · simp [Nat.digits_ne_nil_iff_ne_zero, *]

/-- Every character of a decimal numeral is a digit. -/
theorem mem_printNat_isDig (n : Nat) : ∀ c ∈ printNat n, isDig c = true := by
  unfold printNat
  split
  · intro c hc
    simp at hc
    subst hc
    rfl
  · intro c hc
    simp only [List.mem_reverse, List.mem_map] at hc
    obtain ⟨d, hd, rfl⟩ := hc
    exact isDig_digitChar d (Nat.digits_lt_base (by norm_num) hd)

/-- Parsing a printed numeral returns the number. -/
theorem parseNat_printNat (n : Nat) : parseNat (printNat n) = some n := by
  have hall : (printNat n).all isDig = true :=
    List.all_eq_true.mpr (fun c hc => mem_printNat_isDig n c hc)
  unfold parseNat
  rw [if_pos ⟨printNat_ne_nil n, hall⟩]
  congr 1
  unfold printNat
  split
  · subst n
    decide
  · rw [List.map_reverse, List.reverse_reverse, List.map_map]
    have hmap : (Nat.digits 10 n).map (charDigit ∘ digitChar) = Nat.digits 10 n := by
      rw [show Nat.digits 10 n = (Nat.digits 10 n).map id by rw [List.map_id]]
      rw [List.map_map]
      exact List.map_congr_left
        (fun d hd => charDigit_digitChar d (Nat.digits_lt_base (by norm_num) hd))
    rw [hmap]
    exact Nat.ofDigits_digits 10 n

/-- No character of any chunk produced by `splitOnP` satisfies the
predicate. -/
theorem splitOnP_forall {α : Type} (p : α → Bool) (l : List α) :
    ∀ w ∈ l.splitOnP p, ∀ c ∈ w, p c = false := by
  induction l with
  | nil =>
    intro w hw
    rw [List.splitOnP_nil] at hw
    simp at hw
    subst hw
    simp
  | cons a l ih =>
    intro w hw
    rw [List.splitOnP_cons] at hw
    by_cases hpa : p a = true
    · rw [if_pos hpa] at hw
      rcases List.mem_cons.mp hw with rfl | hw2
      · simp
      · exact ih w hw2
    · rw [if_neg hpa] at hw
      cases hsp : l.splitOnP p with
      | nil => exact absurd hsp (List.splitOnP_ne_nil p l)
      | cons w0 ws =>
        rw [hsp, List.modifyHead] at hw
        rcases List.mem_cons.mp hw with rfl | hw2
        · intro c hc
          rcases List.mem_cons.mp hc with rfl | hc2
          · exact (Bool.not_eq_true _).mp hpa
          · exact ih w0 (by rw [hsp]; simp) c hc2
        · exact ih w (by rw [hsp]; simp [hw2])

/-- The separator occurs in no chunk produced by `splitOn`. -/
theorem mem_splitOn_not {α : Type} [DecidableEq α] (x : α) (l : List α) :
    ∀ w ∈ l.splitOn x, x ∉ w := by
  intro w hw hx
  have h := splitOnP_forall (fun y => y == x) l w hw x hx
  simp at h

/-- `splitOn` never returns the empty list. -/
theorem splitOn_ne_nil {α : Type} [DecidableEq α] (x : α) (l : List α) :
    l.splitOn x ≠ [] :=
  List.splitOnP_ne_nil _ l

/-- Splitting a separator-free list is the singleton chunk. -/
theorem splitOn_single {α : Type} [DecidableEq α] (x : α) (l : List α)
    (h : x ∉ l) : l.splitOn x = [l] :=
  List.splitOnP_eq_single _ _
    (fun y hy hxy => h (eq_of_beq hxy ▸ hy))

/-- Splitting at the first separator after a separator-free block. -/
theorem splitOn_append_sep {α : Type} [DecidableEq α] (x : α)
    (xs as : List α) (h : x ∉ xs) :
    (xs ++ x :: as).splitOn x = xs :: as.splitOn x :=
  List.splitOnP_first (fun y => y == x) xs
    (fun y hy hxy => h (eq_of_beq hxy ▸ hy)) x (beq_self_eq_true x) as

/-- A character of an interspersed concatenation is the separator or
comes from one of the chunks. -/
theorem mem_intercalate_sep {α : Type} (sep : α) (ws : List (List α)) (c : α)
    (hc : c ∈ List.intercalate [sep] ws) : c = sep ∨ ∃ w ∈ ws, c ∈ w := by
  induction ws with
  | nil => simp [List.intercalate] at hc
  | cons w ws ih =>
    cases ws with
    | nil =>
      simp [List.intercalate] at hc
      exact Or.inr ⟨w, by simp, hc⟩
    | cons w2 ws2 =>
      have hstep : List.intercalate [sep] (w :: w2 :: ws2) =
          w ++ sep :: List.intercalate [sep] (w2 :: ws2) := by
        simp [List.intercalate, List.intersperse_cons_cons]
      rw [hstep] at hc
      rcases List.mem_append.mp hc with h1 | h2
      · exact Or.inr ⟨w, by simp, h1⟩
      · rcases List.mem_cons.mp h2 with rfl | h3
        · exact Or.inl rfl
        · rcases ih h3 with h4 | ⟨w3, hw3, hcw⟩
          · exact Or.inl h4
          · exact Or.inr ⟨w3, List.mem_cons_of_mem w hw3, hcw⟩

/-- Parsing a printed date returns the date. -/
theorem parseDate_printDate (d : CalDate) : parseDate (printDate d) = some d := by
  have hx : ∀ l ∈ [printNat d.y, printNat d.m, printNat d.d], '-' ∉ l := by
    intro l hl hc
    simp only [List.mem_cons, List.not_mem_nil, or_false] at hl
    rcases hl with rfl | rfl | rfl <;>
      exact (isDig_ne_sep _ (mem_printNat_isDig _ _ hc)).2.1 rfl
  unfold printDate parseDate
  rw [List.splitOn_intercalate _ '-' hx (by simp)]
  simp [parseNat_printNat]

/-- No character of a printed numeral list separated by commas is a
colon or a space. -/
theorem mem_numeral_list (ws : List Nat) (c : Char)
    (hc : c ∈ List.intercalate [','] (ws.map printNat)) :
    c ≠ ':' ∧ c ≠ ' ' := by
  rcases mem_intercalate_sep ',' (ws.map printNat) c hc with rfl | ⟨w, hw, hcw⟩
  · exact ⟨by decide, by decide⟩
  · simp only [List.mem_map] at hw
    obtain ⟨n, -, rfl⟩ := hw
    have h := isDig_ne_sep c (mem_printNat_isDig n c hcw)
    exact ⟨h.2.2.1, h.1⟩

/-- Mapping `parseNat` over printed numerals recovers the numbers. -/
theorem mapM_parseNat_printNat (l : List Nat) :
    (l.map printNat).mapM parseNat = some l := by
  induction l with
  | nil => rfl
  | cons n l ih =>
    rw [List.map_cons, List.mapM_cons, parseNat_printNat, ih]
    rfl

/-- `decodeRule` after the unit character reduces to the payload match. -/
theorem decodeRule_cons (u : RUnit) (rest : List Char) :
    decodeRule (unitChar u :: rest) =
      (match rest.splitOn ':' with
       | [a] => (parseNat a).map (fun n => (⟨u, n, []⟩ : RepeatRule))
       | [a, b] =>
         match parseNat a, (b.splitOn ',').mapM parseNat with
         | some n, some ws => some ⟨u, n, ws⟩
         | _, _ => none
       | _ => none) := by
  cases u <;> rfl

/-- Decoding an encoded repeat rule returns the rule. -/
theorem decodeRule_encodeRule (r : RepeatRule) :
    decodeRule (encodeRule r) = some r := by
  obtain ⟨u, cnt, wds⟩ := r
  cases wds with
  | nil =>
    have hsingle : (printNat cnt).splitOn ':' = [printNat cnt] :=
      splitOn_single ':' (printNat cnt)
        (fun hc => (isDig_ne_sep _ (mem_printNat_isDig _ _ hc)).2.2.1 rfl)
    show decodeRule (unitChar u :: (printNat cnt ++ [])) =
      some ⟨u, cnt, []⟩
    rw [List.append_nil, decodeRule_cons, hsingle]
    simp [parseNat_printNat]
  | cons w ws2 =>
    have hfree : ':' ∉ printNat cnt :=
      fun hc => (isDig_ne_sep _ (mem_printNat_isDig _ _ hc)).2.2.1 rfl
    have hsplit : (printNat cnt ++
        ':' :: List.intercalate [','] ((w :: ws2).map printNat)).splitOn ':' =
          [printNat cnt,
           List.intercalate [','] ((w :: ws2).map printNat)] := by
      rw [splitOn_append_sep ':' _ _ hfree]
      rw [splitOn_single ':' _
        (fun hc => (mem_numeral_list (w :: ws2) ':' hc).1 rfl)]
    have hinner : (List.intercalate [','] ((w :: ws2).map printNat)).splitOn ','
        = (w :: ws2).map printNat :=
      List.splitOn_intercalate _ ','
        (fun l hl hc => by
          simp only [List.mem_map] at hl
          obtain ⟨n, -, rfl⟩ := hl
          exact (isDig_ne_sep _ (mem_printNat_isDig _ _ hc)).2.2.2 rfl)
        (by simp)
    show decodeRule (unitChar u :: (printNat cnt ++
        ':' :: List.intercalate [','] ((w :: ws2).map printNat))) =
      some ⟨u, cnt, w :: ws2⟩
    rw [decodeRule_cons, hsplit]
    dsimp only
    rw [parseNat_printNat, hinner, mapM_parseNat_printNat]

/-- Decoding the due-date token yields the date tag. -/
theorem decodeTag_dueTok (d : CalDate) :
    decodeTag (dueTok d) = some (TagVal.dueV d) := by
  show (parseDate (printDate d)).map TagVal.dueV = some (TagVal.dueV d)
  rw [parseDate_printDate]
  rfl

/-- Decoding the repeat token yields the rule tag. -/
theorem decodeTag_repTok (r : RepeatRule) :
    decodeTag (repTok r) = some (TagVal.repV r) := by
  show (decodeRule (encodeRule r)).map TagVal.repV = some (TagVal.repV r)
  rw [decodeRule_encodeRule]
  rfl

/-- Decoding the backlink token yields the backlink tag. -/
theorem decodeTag_fromTok (s : String) :
    decodeTag (fromTok s) = some (TagVal.fromV s) :=
  rfl

/-- Every character of a printed date is a digit or the dash. -/
theorem printDate_chars (d : CalDate) (c : Char) (hc : c ∈ printDate d) :
    isDig c = true ∨ c = '-' := by
  unfold printDate at hc
  rcases mem_intercalate_sep '-' _ c hc with rfl | ⟨w, hw, hcw⟩
  · exact Or.inr rfl
  · simp only [List.mem_cons, List.not_mem_nil, or_false] at hw
    rcases hw with rfl | rfl | rfl <;> exact Or.inl (mem_printNat_isDig _ _ hcw)

/-- A printed date contains no space. -/
theorem printDate_no_space (d : CalDate) (hc : ' ' ∈ printDate d) : False := by
  rcases printDate_chars d ' ' hc with h | h
  · exact absurd h (by decide)
  · exact absurd h (by decide)

/-- An encoded repeat rule contains no space. -/
theorem encodeRule_no_space (r : RepeatRule) (hc : ' ' ∈ encodeRule r) :
    False := by
  obtain ⟨u, cnt, wds⟩ := r
  unfold encodeRule at hc
  rcases List.mem_cons.mp hc with h | h
  · cases u <;> simp [unitChar] at h
  · rcases List.mem_append.mp h with h2 | h2
    · exact absurd (mem_printNat_isDig _ _ h2) (by decide)
    · cases wds with
      | nil => simp at h2
      | cons w ws2 =>
        rcases List.mem_cons.mp h2 with h3 | h3
        · exact absurd h3 (by decide)
        · exact (mem_numeral_list (w :: ws2) ' ' h3).2 rfl

/-- The serialized tag tokens of a task with a space-free backlink are
space-free. -/
theorem tagWords_no_space (t : SlatedTask)
    (href : ∀ s, t.originRef = some s →
      s.data.all (fun c => c ≠ ' ') = true) :
    ∀ w ∈ tagWords t, ' ' ∉ w := by
  intro w hw hc
  unfold tagWords at hw
  rcases List.mem_append.mp hw with hw1 | hw2
  · rcases List.mem_append.mp hw1 with hwd | hwr
    · cases hd : t.dueDate with
      | none =>
        rw [hd] at hwd
        simp at hwd
      | some d =>
        rw [hd] at hwd
        simp at hwd
        subst hwd
        rcases List.mem_cons.mp hc with h | h
        · simp at h
        rcases List.mem_cons.mp h with h | h
        · simp at h
        rcases List.mem_cons.mp h with h | h
        · simp at h
        rcases List.mem_cons.mp h with h | h
        · simp at h
        · exact printDate_no_space d h
    · cases hr : t.repeatRule with
      | none =>
        rw [hr] at hwr
        simp at hwr
      | some r =>
        rw [hr] at hwr
        simp at hwr
        subst hwr
        rcases List.mem_cons.mp hc with h | h
        · simp at h
        rcases List.mem_cons.mp h with h | h
        · simp at h
        rcases List.mem_cons.mp h with h | h
        · simp at h
        rcases List.mem_cons.mp h with h | h
        · simp at h
        · exact encodeRule_no_space r h
  · cases ho : t.originRef with
    | none =>
      rw [ho] at hw2
      simp at hw2
    | some s =>
      rw [ho] at hw2
      simp at hw2
      subst hw2
      rcases List.mem_cons.mp hc with h | h
      · simp at h
      rcases List.mem_cons.mp h with h | h
      · simp at h
      rcases List.mem_cons.mp h with h | h
      · simp at h
      rcases List.mem_cons.mp h with h | h
      · simp at h
      rcases List.mem_cons.mp h with h | h
      · simp at h
      · have hall := List.all_eq_true.mp (href s ho) ' ' h
        simp at hall

/-- A word list consisting solely of decodable tag tokens is consumed
entirely by `splitTagSuffix`. -/
theorem splitTagSuffix_all_tags :
    ∀ (T : List (List Char)) (vals : List TagVal),
      decodeAllTags T = some vals → splitTagSuffix T = ([], vals) := by
  intro T
  induction T with
  | nil =>
    intro vals h
    simp [decodeAllTags] at h
    subst h
    rfl
  | cons w T ih =>
    intro vals h
    cases hw : decodeTag w with
    | none =>
      rw [decodeAllTags, hw] at h
      simp at h
    | some v =>
      cases hT : decodeAllTags T with
      | none =>
        rw [decodeAllTags, hw, hT] at h
        simp at h
      | some vs =>
        rw [decodeAllTags, hw, hT] at h
        simp at h
        subst h
        simp [splitTagSuffix, ih vs hT, hw]

/-- `splitTagSuffix` recovers the text words and the decoded tag values
of a serialized word list, when the text's last word is not itself a
decodable tag token. -/
theorem splitTagSuffix_append (W T : List (List Char)) (vals : List TagVal)
    (hT : decodeAllTags T = some vals)
    (hW : ∀ lw, W.getLast? = some lw → decodeTag lw = none) :
    splitTagSuffix (W ++ T) = (W, vals) := by
  induction W with
  | nil => simpa using splitTagSuffix_all_tags T vals hT
  | cons w W ih =>
    cases hWe : W with
    | nil =>
      subst hWe
      have hw : decodeTag w = none := hW w rfl
      simp [splitTagSuffix, splitTagSuffix_all_tags T vals hT, hw]
    | cons w2 W2 =>
      have hW2 : ∀ lw, W.getLast? = some lw → decodeTag lw = none := by
        intro lw hlw
        apply hW
        rw [hWe] at hlw ⊢
        rw [List.getLast?_cons_cons]
        exact hlw
      have ih2 := ih hW2
      subst hWe
      rw [List.cons_append]
      unfold splitTagSuffix
      rw [ih2]

/-- Folding the decoded tag values over a fresh task records exactly the
original optional fields. -/
theorem foldl_applyTag (st : TStatus) (txt : String) (d? : Option CalDate)
    (r? : Option RepeatRule) (o? : Option String) :
    ((d?.map TagVal.dueV).toList ++ (r?.map TagVal.repV).toList ++
        (o?.map TagVal.fromV).toList).foldl applyTag
      ⟨st, txt, none, none, none⟩ = ⟨st, txt, d?, r?, o?⟩ := by
  rcases d? <;> rcases r? <;> rcases o? <;> rfl

/-- The serialized tag tokens decode to the task's tag values. -/
theorem tagWords_decodeAll (t : SlatedTask) :
    decodeAllTags (tagWords t) =
      some ((t.dueDate.map TagVal.dueV).toList ++
        (t.repeatRule.map TagVal.repV).toList ++
        (t.originRef.map TagVal.fromV).toList) := by
  unfold tagWords
  cases t.dueDate <;> cases t.repeatRule <;> cases t.originRef <;>
    simp [decodeAllTags, decodeTag_dueTok, decodeTag_repTok, decodeTag_fromTok]

/-- C5: for every task in the image of the parser (equivalently, every
syntactically valid task: its text cannot end in a word that is itself a
tag token, and its backlink fits in one token), parsing its
serialization returns the identical task — status, text, due date,
repeat rule and backlink all equal. -/
theorem C5_parse_serialize_roundtrip (t : SlatedTask) (h : validTask t = true) :
    parseTask (serializeTask t) = some t := by
  rw [validTask, Bool.and_eq_true] at h
  obtain ⟨h1, h2⟩ := h
  have href : ∀ s, t.originRef = some s →
      s.data.all (fun c => c ≠ ' ') = true := by
    intro s hs
    rw [hs] at h2
    exact h2
  have hW : ∀ lw, (t.text.data.splitOn ' ').getLast? = some lw →
      decodeTag lw = none := by
    intro lw hlw
    rw [hlw] at h1
    exact Option.isNone_iff_eq_none.mp h1
  have hsplit : (List.intercalate [' ']
      (t.text.data.splitOn ' ' ++ tagWords t)).splitOn ' ' =
        t.text.data.splitOn ' ' ++ tagWords t := by
    apply List.splitOn_intercalate
    · intro l hl
      rcases List.mem_append.mp hl with hl1 | hl2
      · exact mem_splitOn_not ' ' t.text.data l hl1
      · exact tagWords_no_space t href l hl2
    · intro hnil
      exact splitOn_ne_nil ' ' t.text.data (List.append_eq_nil.mp hnil).1
  have htags := splitTagSuffix_append (t.text.data.splitOn ' ') (tagWords t) _
    (tagWords_decodeAll t) hW
  show parseTask ⟨'-' :: ' ' :: '[' :: statusChar t.status :: ']' :: ' ' ::
      List.intercalate [' '] (t.text.data.splitOn ' ' ++ tagWords t)⟩ = some t
  rw [show parseTask ⟨'-' :: ' ' :: '[' :: statusChar t.status :: ']' :: ' ' ::
      List.intercalate [' '] (t.text.data.splitOn ' ' ++ tagWords t)⟩ =
    (match charStatus (statusChar t.status) with
     | none => none
     | some st =>
       match splitTagSuffix ((List.intercalate [' ']
           (t.text.data.splitOn ' ' ++ tagWords t)).splitOn ' ') with
       | (tws, tags) => some (tags.foldl applyTag
           { status := st, text := ⟨List.intercalate [' '] tws⟩,
             dueDate := none, repeatRule := none, originRef := none })) from rfl]
  rw [charStatus_statusChar, hsplit, htags]
  dsimp only
  rw [foldl_applyTag, List.intercalate_splitOn]

/-- C5 witness: a concrete done task with text, due date, repeat rule
and backlink survives the round trip unchanged. -/
theorem C5_witness :
    validTask ⟨.done, "Buy milk", some ⟨2020, 1, 31⟩, some ⟨.week, 2, [1, 3]⟩,
      some ("day1.md")⟩ = true ∧
    parseTask (serializeTask ⟨.done, "Buy milk", some ⟨2020, 1, 31⟩,
        some ⟨.week, 2, [1, 3]⟩, some ("day1.md")⟩) =
      some ⟨.done, "Buy milk", some ⟨2020, 1, 31⟩, some ⟨.week, 2, [1, 3]⟩,
        some ("day1.md")⟩ :=
  ⟨by decide, C5_parse_serialize_roundtrip _ (by decide)⟩
